import Mathlib

/-!
Verification development for the MetaNetX assets reaction-equation parser
(`metanetx_assets/etl/reaction.py`, class `EquationParser`).

The pyparsing grammar and the `parse_participants` resolution step are
shallowly embedded as executable recursive-descent parsers over `List Char`.
pyparsing semantics embedded here:

* every grammar element first skips the default whitespace characters
  (space, newline, tab) before matching;
* `pp.Regex(r"MNXM\d+")` is a prefix match at the current position: the
  literal letters followed by one or more digits, taken greedily;
* `pp.Keyword(w)` matches the word `w` only when the neighbouring
  characters (the one before the match and the one after) are not keyword
  identifier characters (alphanumerics, underscore, dollar);
* `coefficient` uses `^` (longest-match Or) over an integer `Word`, a
  `Combine(Word + "." + Word)` decimal (no internal whitespace), and
  `nestedExpr` with default `(`/`)` delimiters; since the integer/decimal
  branches start with a digit and `nestedExpr` starts with `(`, the
  alternatives are disjoint and longest-match reduces to: parenthesised
  balanced text if the input starts with `(`, otherwise the longest
  integer-or-decimal literal. `originalTextFor` captures the matched span
  of the original text verbatim (no leading/trailing whitespace);
* `delimitedList(participant, delim="+")` is one participant followed by
  zero or more of (`+` then participant); a `+` whose following participant
  fails is not consumed (the repetition backtracks to before the `+`);
* `parseString(..., parseAll=True)` requires that after the reaction only
  whitespace remains.

The repetition is implemented with a fuel argument; `parse` passes the
input length as fuel, which suffices because every repetition step consumes
at least the `+` character.
-/

namespace MetanetxAssets

/-- Default pyparsing whitespace characters (space, newline, tab). -/
def wsChar (c : Char) : Bool :=
  c = ' ' || c = '\n' || c = '\t'

/-- Skip leading whitespace, as every pyparsing element does before matching. -/
def skipWs (s : List Char) : List Char :=
  s.dropWhile wsChar

/-- Remove every whitespace character (used to state whitespace-normalised
equality of texts). -/
def stripWs (s : List Char) : List Char :=
  s.filter (fun c => !wsChar c)

/-- ASCII digit test (`pp.nums`). -/
def digitChar (c : Char) : Bool :=
  '0' ≤ c && c ≤ '9'

/-- Keyword identifier characters of `pp.Keyword` (alphanumerics plus `_$`). -/
def identChar (c : Char) : Bool :=
  c.isAlphanum || c = '_' || c = '$'

/-- Match the literal character sequence `pre` at the head of `s`,
returning the rest. -/
def matchChars : List Char → List Char → Option (List Char)
  | [], s => some s
  | _ :: _, [] => none
  | c :: cs, d :: s => if d = c then matchChars cs s else none

/-- Embed `pp.Regex` shapes such as `MNXM\d+`: the fixed letters `pre`
followed by one or more digits, greedily.  Returns the matched token and
the rest.  The input is already whitespace-skipped by the caller. -/
def pFixedDigits (pre : List Char) (s : List Char) : Option (List Char × List Char) :=
  match matchChars pre s with
  | none => none
  | some r =>
    let ds := r.takeWhile digitChar
    if ds.isEmpty then none else some (pre ++ ds, r.dropWhile digitChar)

/-- Embed `pp.Keyword kw`: the literal word, provided the preceding
character was acceptable (`prevOk`) and the following character is not a
keyword identifier character.  The input is already whitespace-skipped. -/
def pKeyword (kw : List Char) (prevOk : Bool) (s : List Char) :
    Option (List Char × List Char) :=
  if prevOk then
    match matchChars kw s with
    | none => none
    | some r =>
      match r with
      | [] => some (kw, [])
      | d :: _ => if identChar d then none else some (kw, r)
  else none

/-- Head-is-whitespace test: true when the grammar element will skip at
least one whitespace character, in which case a keyword's
preceding-character check looks at that whitespace instead of `prev`. -/
def headIsWs : List Char → Bool
  | c :: _ => wsChar c
  | [] => false

/-- Embed the `compound` rule: `pp.Regex(r"MNXM\d+") | pp.Keyword("BIOMASS")`.
`prev` is the character immediately before `s` in the full input; the
keyword's preceding-character check passes when whitespace was skipped or
`prev` is not an identifier character. -/
def pCompound (prev : Char) (s : List Char) : Option (List Char × List Char) :=
  match pFixedDigits ['M', 'N', 'X', 'M'] (skipWs s) with
  | some res => some res
  | none =>
    pKeyword "BIOMASS".data (headIsWs s || !identChar prev) (skipWs s)

/-- Embed the `compartment` rule:
`Regex(MNXC\d+) | Regex(MNXD\d+) | Regex(MNXDX) | Keyword("BOUNDARY")`,
tried in this order (`MatchFirst`). -/
def pCompartment (prev : Char) (s : List Char) : Option (List Char × List Char) :=
  match pFixedDigits ['M', 'N', 'X', 'C'] (skipWs s) with
  | some res => some res
  | none =>
    match pFixedDigits ['M', 'N', 'X', 'D'] (skipWs s) with
    | some res => some res
    | none =>
      match matchChars ['M', 'N', 'X', 'D', 'X'] (skipWs s) with
      | some r => some (['M', 'N', 'X', 'D', 'X'], r)
      | none =>
        pKeyword "BOUNDARY".data (headIsWs s || !identChar prev) (skipWs s)

/-- Scan the inside of a `nestedExpr` group: consume characters until the
parenthesis opened before the call is closed, tracking nesting depth `d`
(initially 1).  Returns the consumed characters (closer included) and the
rest. -/
def scanBalanced (d : Nat) : List Char → Option (List Char × List Char)
  | [] => none
  | c :: r =>
    if c = '(' then
      (scanBalanced (d + 1) r).map (fun p => (c :: p.1, p.2))
    else if c = ')' then
      match d with
      | 0 => none
      | 1 => some ([c], r)
      | dd + 2 => (scanBalanced (dd + 1) r).map (fun p => (c :: p.1, p.2))
    else
      (scanBalanced d r).map (fun p => (c :: p.1, p.2))

/-- Longest integer-or-decimal literal at the head of the (already
whitespace-skipped) input: greedy digits, extended over `.` and more digits
only when at least one digit follows the dot (`Word ^ Combine`, longest
match). -/
def pNumCoef (s1 : List Char) : Option (List Char × List Char) :=
  let ds := s1.takeWhile digitChar
  let r1 := s1.dropWhile digitChar
  if ds.isEmpty then none
  else
    match r1 with
    | c :: r2 =>
      if c = '.' then
        let ds2 := r2.takeWhile digitChar
        if ds2.isEmpty then some (ds, r1)
        else some (ds ++ c :: ds2, r2.dropWhile digitChar)
      else some (ds, r1)
    | [] => some (ds, r1)

/-- Embed the `coefficient` rule, `originalTextFor` included: a
parenthesised balanced group taken verbatim, or the longest
integer / decimal literal. -/
def pCoefficient (s : List Char) : Option (List Char × List Char) :=
  match skipWs s with
  | c :: r =>
    if c = '(' then
      match scanBalanced 1 r with
      | some (t, r2) => some (c :: t, r2)
      | none => none
    else pNumCoef (c :: r)
  | [] => none

/-- Match a single literal character after skipping whitespace
(`pp.Literal`, as produced for `"@"`, `"="`, and the `"+"` delimiter). -/
def pLit (c : Char) (s : List Char) : Option (List Char) :=
  match skipWs s with
  | d :: r => if d = c then some r else none
  | [] => none

/-- Raw participant as captured by the grammar's `Group`: the verbatim
coefficient, compound and compartment texts. -/
structure RawParticipant where
  coefficient : String
  compound : String
  compartment : String
deriving Repr, DecidableEq

/-- Embed the `participant` rule:
`coefficient + compound + "@" + compartment`.  The character preceding the
compound (for the `BIOMASS` keyword boundary check) is the last character
of the coefficient text; the character preceding the compartment is `@`. -/
def pParticipant (s : List Char) : Option (RawParticipant × List Char) :=
  match pCoefficient s with
  | none => none
  | some (coef, s1) =>
    match pCompound (coef.getLastD ' ') s1 with
    | none => none
    | some (cpd, s2) =>
      match pLit '@' s2 with
      | none => none
      | some s3 =>
        match pCompartment '@' s3 with
        | none => none
        | some (cpt, s4) => some (⟨⟨coef⟩, ⟨cpd⟩, ⟨cpt⟩⟩, s4)

/-- Repetition part of `delimitedList(participant, delim="+")`: zero or
more of (`+` then participant); a `+` whose participant fails is left
unconsumed.  `fuel` bounds the number of iterations. -/
def pMoreParticipants : Nat → List Char → List RawParticipant × List Char
  | 0, s => ([], s)
  | fuel + 1, s =>
    match pLit '+' s with
    | none => ([], s)
    | some s1 =>
      match pParticipant s1 with
      | none => ([], s)
      | some (p, s2) =>
        let rest := pMoreParticipants fuel s2
        (p :: rest.1, rest.2)

/-- Embed `delimitedList(participant, delim="+")`: at least one
participant, then the repetition. -/
def pParticipantList (fuel : Nat) (s : List Char) :
    Option (List RawParticipant × List Char) :=
  match pParticipant s with
  | none => none
  | some (p, s1) =>
    let rest := pMoreParticipants fuel s1
    some (p :: rest.1, rest.2)

/-- Parsed equation: ordered substrate and product participant lists. -/
structure Equation where
  substrates : List RawParticipant
  products : List RawParticipant
deriving Repr, DecidableEq

/-- Embed the `reaction` rule:
`Group(delimitedList(participant))("substrates") + "=" +
Group(delimitedList(participant))("products")`. -/
def pReaction (fuel : Nat) (s : List Char) : Option (Equation × List Char) :=
  match pParticipantList fuel s with
  | none => none
  | some (subs, s1) =>
    match pLit '=' s1 with
    | none => none
    | some s2 =>
      match pParticipantList fuel s2 with
      | none => none
      | some (prods, s3) => some (⟨subs, prods⟩, s3)

/-- Run the reaction grammar on a string, returning the parsed equation
and the unconsumed rest (a prefix match, before `parseAll` is applied). -/
def parseRaw (s : String) : Option (Equation × List Char) :=
  pReaction s.length s.data

/-- Embed `reaction.parseString(equation, parseAll=True)`: the whole input
must be consumed, up to trailing whitespace. -/
def parseEquation (s : String) : Option Equation :=
  match parseRaw s with
  | some (eq, rest) => if skipWs rest = [] then some eq else none
  | none => none

/-- Which lookup mapping a failed dictionary access was made in. -/
inductive TokenRole
  | compound
  | compartment
deriving Repr, DecidableEq

/-- Errors of `parse_participants`: a pyparsing `ParseException`
(syntax error), or a Python `KeyError` from a lookup miss, carrying the
missing token and which mapping missed. -/
inductive EquationError
  | syntaxError
  | keyError (role : TokenRole) (token : String)
deriving Repr, DecidableEq

/-- Embed the `cobra_component_models.orm.Participant` records built by
`parse_participants`. -/
structure Participant where
  compound_id : Int
  compartment_id : Int
  stoichiometry : String
  is_product : Bool
deriving Repr, DecidableEq

/-- Resolve one raw participant:
`Participant(compound_id=compound_mapping[p.compound],
compartment_id=compartment_mapping[p.compartment],
stoichiometry=p.coefficient, is_product=...)`; Python evaluates the
compound subscript first, so its `KeyError` wins. -/
def resolveParticipant (cm km : String → Option Int) (isProd : Bool)
    (p : RawParticipant) : Except EquationError Participant :=
  match cm p.compound with
  | none => .error (.keyError .compound p.compound)
  | some cid =>
    match km p.compartment with
    | none => .error (.keyError .compartment p.compartment)
    | some xid => .ok ⟨cid, xid, p.coefficient, isProd⟩

/-- Resolve a side of the equation left to right, failing on the first
lookup miss (the Python list comprehension raises at that element). -/
def resolveList (cm km : String → Option Int) (isProd : Bool) :
    List RawParticipant → Except EquationError (List Participant)
  | [] => .ok []
  | p :: ps =>
    match resolveParticipant cm km isProd p with
    | .error e => .error e
    | .ok q =>
      match resolveList cm km isProd ps with
      | .error e => .error e
      | .ok qs => .ok (q :: qs)

/-- Embed `EquationParser.parse_participants`: parse the equation, then
resolve all substrates (is_product=False), then all products
(is_product=True), returning the concatenated list. -/
def parse_participants (equation : String) (cm km : String → Option Int) :
    Except EquationError (List Participant) :=
  match parseEquation equation with
  | none => .error .syntaxError
  | some eq =>
    match resolveList cm km false eq.substrates with
    | .error e => .error e
    | .ok subs =>
      match resolveList cm km true eq.products with
      | .error e => .error e
      | .ok prods => .ok (subs ++ prods)

/-- Finite lookup table, embedding the Python `dict` arguments. -/
def lookupOf (l : List (String × Int)) (k : String) : Option Int :=
  (l.find? (fun p => p.1 == k)).map Prod.snd

/-- The everywhere-undefined lookup, embedding the empty `dict`. -/
def emptyLookup : String → Option Int := fun _ => none

/-- Serialisation of one participant back to text:
`<coefficient><compound>@<compartment>`. -/
def serializeParticipant (p : RawParticipant) : List Char :=
  p.coefficient.data ++ p.compound.data ++ '@' :: p.compartment.data

/-- Serialisation of the tail of a participant list, each entry preceded by
its `+` delimiter. -/
def serializeRest : List RawParticipant → List Char
  | [] => []
  | p :: ps => '+' :: (serializeParticipant p ++ serializeRest ps)

/-- Serialisation of one side of an equation, participants joined by `+`. -/
def serializeSide : List RawParticipant → List Char
  | [] => []
  | p :: ps => serializeParticipant p ++ serializeRest ps

/-- Serialisation of a whole equation, the two sides joined by `=`. -/
def serializeEquation (eq : Equation) : List Char :=
  serializeSide eq.substrates ++ '=' :: serializeSide eq.products

section ListHelpers

variable {p : Char → Bool}

theorem dropWhile_append_ne_nil (s x : List Char) (h : s.dropWhile p ≠ []) :
    (s ++ x).dropWhile p = s.dropWhile p ++ x := by
  induction s with
  | nil => simp at h
  | cons c cs ih =>
    by_cases hc : p c
    · simp only [List.cons_append, List.dropWhile_cons, hc, if_true]
      simp only [List.dropWhile_cons, hc, if_true] at h
      exact ih h
    · simp only [List.cons_append, List.dropWhile_cons, hc, if_false]
      simp [List.dropWhile_cons, hc]

theorem takeWhile_append_ne_nil (s x : List Char) (h : s.dropWhile p ≠ []) :
    (s ++ x).takeWhile p = s.takeWhile p := by
  induction s with
  | nil => simp at h
  | cons c cs ih =>
    by_cases hc : p c
    · simp only [List.cons_append, List.takeWhile_cons, hc, if_true]
      simp only [List.dropWhile_cons, hc, if_true] at h
      rw [ih h]
    · simp [List.takeWhile_cons, hc]

theorem dropWhile_append_all (s x : List Char) (h : ∀ c ∈ s, p c = true) :
    (s ++ x).dropWhile p = x.dropWhile p := by
  induction s with
  | nil => rfl
  | cons c cs ih =>
    simp only [List.cons_append, List.dropWhile_cons, h c (List.mem_cons_self c cs), if_true]
    exact ih (fun d hd => h d (List.mem_cons_of_mem c hd))

theorem takeWhile_all_append (s x : List Char) (h : ∀ c ∈ s, p c = true) :
    (s ++ x).takeWhile p = s ++ x.takeWhile p := by
  induction s with
  | nil => rfl
  | cons c cs ih =>
    simp only [List.cons_append, List.takeWhile_cons, h c (List.mem_cons_self c cs), if_true]
    rw [ih (fun d hd => h d (List.mem_cons_of_mem c hd))]

end ListHelpers

theorem skipWs_append_wsOnly (w s : List Char) (h : ∀ c ∈ w, wsChar c = true) :
    skipWs (w ++ s) = skipWs s :=
  dropWhile_append_all w s h

theorem skipWs_wsOnly (w : List Char) (h : ∀ c ∈ w, wsChar c = true) :
    skipWs w = [] := by
  have h2 := skipWs_append_wsOnly w [] h
  simpa using h2

theorem skipWs_append_ne_nil (s x : List Char) (h : skipWs s ≠ []) :
    skipWs (s ++ x) = skipWs s ++ x :=
  dropWhile_append_ne_nil s x h

theorem skipWs_decomp (s : List Char) :
    (∀ c ∈ s.takeWhile wsChar, wsChar c = true) ∧ s = s.takeWhile wsChar ++ skipWs s :=
  ⟨fun _ hc => List.mem_takeWhile_imp hc, (List.takeWhile_append_dropWhile wsChar s).symm⟩

theorem stripWs_append (a b : List Char) :
    stripWs (a ++ b) = stripWs a ++ stripWs b :=
  List.filter_append a b

theorem stripWs_wsOnly (w : List Char) (h : ∀ c ∈ w, wsChar c = true) :
    stripWs w = [] := by
  simp only [stripWs, List.filter_eq_nil_iff]
  intro c hc
  simp [h c hc]

theorem stripWs_cons_not (c : Char) (s : List Char) (h : wsChar c = false) :
    stripWs (c :: s) = c :: stripWs s := by
  simp [stripWs, List.filter_cons, h]

/-- Resolution succeeds on a side whose tokens are all present in the
lookups, and returns the participants in order with the mapped
identifiers. -/
theorem resolveList_ok (cm km : String → Option Int) (b : Bool)
    (ps : List RawParticipant)
    (h : ∀ p ∈ ps, (cm p.compound).isSome ∧ (km p.compartment).isSome) :
    resolveList cm km b ps =
      .ok (ps.map (fun p =>
        ⟨(cm p.compound).getD 0, (km p.compartment).getD 0, p.coefficient, b⟩)) := by
  induction ps with
  | nil => rfl
  | cons p ps ih =>
    obtain ⟨h1, h2⟩ := h p (List.mem_cons_self p ps)
    obtain ⟨cid, hc⟩ := Option.isSome_iff_exists.mp h1
    obtain ⟨xid, hx⟩ := Option.isSome_iff_exists.mp h2
    have ih2 := ih (fun q hq => h q (List.mem_cons_of_mem p hq))
    simp [resolveList, resolveParticipant, hc, hx, ih2]

/-- Resolution of a side containing an unresolvable token fails with a
`KeyError` naming a token that is indeed missing from the corresponding
mapping. -/
theorem resolveList_miss (cm km : String → Option Int) (b : Bool)
    (ps : List RawParticipant)
    (h : ∃ p ∈ ps, cm p.compound = none ∨ km p.compartment = none) :
    ∃ role tok, resolveList cm km b ps = .error (.keyError role tok) ∧
      ((role = .compound ∧ cm tok = none ∧ ∃ p ∈ ps, p.compound = tok) ∨
       (role = .compartment ∧ km tok = none ∧ ∃ p ∈ ps, p.compartment = tok)) := by
  induction ps with
  | nil => simp at h
  | cons p ps ih =>
    cases hc : cm p.compound with
    | none =>
      refine ⟨.compound, p.compound, ?_, ?_⟩
      · simp [resolveList, resolveParticipant, hc]
      · exact Or.inl ⟨rfl, hc, p, List.mem_cons_self p ps, rfl⟩
    | some cid =>
      cases hx : km p.compartment with
      | none =>
        refine ⟨.compartment, p.compartment, ?_, ?_⟩
        · simp [resolveList, resolveParticipant, hc, hx]
        · exact Or.inr ⟨rfl, hx, p, List.mem_cons_self p ps, rfl⟩
      | some xid =>
        have htail : ∃ q ∈ ps, cm q.compound = none ∨ km q.compartment = none := by
          obtain ⟨q, hq, hmiss⟩ := h
          rcases List.mem_cons.mp hq with rfl | hq2
          · rcases hmiss with h1 | h1 <;> simp [hc, hx] at h1
          · exact ⟨q, hq2, hmiss⟩
        obtain ⟨role, tok, herr, hprop⟩ := ih htail
        refine ⟨role, tok, ?_, ?_⟩
        · simp [resolveList, resolveParticipant, hc, hx, herr]
        · rcases hprop with ⟨h1, h2, q, hq, h3⟩ | ⟨h1, h2, q, hq, h3⟩
          · exact Or.inl ⟨h1, h2, q, List.mem_cons_of_mem p hq, h3⟩
          · exact Or.inr ⟨h1, h2, q, List.mem_cons_of_mem p hq, h3⟩

/-- C1: on `"1 MNXM1@MNXC3 + 2 MNXM4@MNXC3 = 1 MNXM9@MNXC4"` with lookups
`{MNXM1 ↦ 10, MNXM4 ↦ 11, MNXM9 ↦ 12}` and `{MNXC3 ↦ 1, MNXC4 ↦ 2}`,
`parse_participants` returns exactly the three resolved participants
(10,1,"1",substrate), (11,1,"2",substrate), (12,2,"1",product), in this
order. -/
theorem c1_resolve_example :
    parse_participants "1 MNXM1@MNXC3 + 2 MNXM4@MNXC3 = 1 MNXM9@MNXC4"
      (lookupOf [("MNXM1", 10), ("MNXM4", 11), ("MNXM9", 12)])
      (lookupOf [("MNXC3", 1), ("MNXC4", 2)]) =
    .ok [⟨10, 1, "1", false⟩, ⟨11, 1, "2", false⟩, ⟨12, 2, "1", true⟩] := by
  rfl

/-- C2 (divergence witness): on the bare separator `"="` the implemented
grammar fails with a syntax error — `delimitedList` demands at least one
participant on each side — whereas the specification and the repository's
own test `test_parsing_empty_reaction` require the empty list to be
returned. -/
theorem c2_empty_equation_is_syntax_error :
    parse_participants "=" emptyLookup emptyLookup = .error .syntaxError ∧
    parseEquation "=" = none := by
  exact ⟨rfl, rfl⟩

/-- C5: whenever an equation parses and has at least one participant,
resolving it against two empty lookups fails with a `KeyError` (lookup
miss) on the first participant's compound token — never with a syntax
error. -/
theorem c5_empty_lookups_fail_with_key_error (s : String) (eq : Equation)
    (p : RawParticipant) (ps : List RawParticipant)
    (hp : parseEquation s = some eq)
    (hne : eq.substrates ++ eq.products = p :: ps) :
    parse_participants s emptyLookup emptyLookup =
      .error (.keyError .compound p.compound) := by
  cases hsub : eq.substrates with
  | nil =>
    rw [hsub] at hne
    simp only [List.nil_append] at hne
    simp [parse_participants, hp, hsub, hne, resolveList, resolveParticipant, emptyLookup]
  | cons q qs =>
    rw [hsub, List.cons_append] at hne
    injection hne with h1 h2
    simp [parse_participants, hp, hsub, h1, resolveList, resolveParticipant, emptyLookup]

/-- C5 witness: the general theorem applied to the concrete equation
`"1 MNXM1@MNXC3 = 1 MNXM9@MNXC4"`. -/
theorem c5_witness :
    parse_participants "1 MNXM1@MNXC3 = 1 MNXM9@MNXC4" emptyLookup emptyLookup =
      .error (.keyError .compound "MNXM1") :=
  c5_empty_lookups_fail_with_key_error "1 MNXM1@MNXC3 = 1 MNXM9@MNXC4"
    ⟨[⟨"1", "MNXM1", "MNXC3"⟩], [⟨"1", "MNXM9", "MNXC4"⟩]⟩
    ⟨"1", "MNXM1", "MNXC3"⟩ [⟨"1", "MNXM9", "MNXC4"⟩] (by decide) (by decide)

/-- C3: whenever the equation parses and every participant token resolves,
the output is exactly the substrates in textual order (is_product=false)
followed by the products in textual order (is_product=true); being a `map`,
it keeps duplicates as separate positional entries. -/
theorem c3_output_order (s : String) (cm km : String → Option Int)
    (eq : Equation) (hp : parseEquation s = some eq)
    (h : ∀ p ∈ eq.substrates ++ eq.products,
      (cm p.compound).isSome ∧ (km p.compartment).isSome) :
    parse_participants s cm km =
      .ok (eq.substrates.map (fun p =>
            ⟨(cm p.compound).getD 0, (km p.compartment).getD 0, p.coefficient, false⟩)
        ++ eq.products.map (fun p =>
            ⟨(cm p.compound).getD 0, (km p.compartment).getD 0, p.coefficient, true⟩)) := by
  have hs := resolveList_ok cm km false eq.substrates
    (fun p hq => h p (List.mem_append_left _ hq))
  have hpr := resolveList_ok cm km true eq.products
    (fun p hq => h p (List.mem_append_right _ hq))
  simp [parse_participants, hp, hs, hpr]

/-- C3 witness: a concrete equation with a duplicated substrate; both
copies appear, in order, before the product. -/
theorem c3_witness :
    parse_participants "1 MNXM1@MNXC3 + 1 MNXM1@MNXC3 = 2 MNXM9@MNXC4"
      (lookupOf [("MNXM1", 10), ("MNXM9", 12)])
      (lookupOf [("MNXC3", 1), ("MNXC4", 2)]) =
    .ok [⟨10, 1, "1", false⟩, ⟨10, 1, "1", false⟩, ⟨12, 2, "2", true⟩] :=
  c3_output_order "1 MNXM1@MNXC3 + 1 MNXM1@MNXC3 = 2 MNXM9@MNXC4"
    (lookupOf [("MNXM1", 10), ("MNXM9", 12)])
    (lookupOf [("MNXC3", 1), ("MNXC4", 2)])
    ⟨[⟨"1", "MNXM1", "MNXC3"⟩, ⟨"1", "MNXM1", "MNXC3"⟩], [⟨"2", "MNXM9", "MNXC4"⟩]⟩
    (by decide) (by decide)

/-- C4: whenever the equation parses but some participant's compound or
compartment token is missing from the corresponding lookup, resolution
fails with a `KeyError` carrying a genuinely missing token together with
the mapping (compound vs. compartment) it was missing from, and no list is
returned. -/
theorem c4_unresolved_token_fails (s : String) (cm km : String → Option Int)
    (eq : Equation) (hp : parseEquation s = some eq)
    (hmiss : ∃ p ∈ eq.substrates ++ eq.products,
      cm p.compound = none ∨ km p.compartment = none) :
    ∃ role tok,
      parse_participants s cm km = .error (.keyError role tok) ∧
      ((role = .compound ∧ cm tok = none ∧
          ∃ p ∈ eq.substrates ++ eq.products, p.compound = tok) ∨
       (role = .compartment ∧ km tok = none ∧
          ∃ p ∈ eq.substrates ++ eq.products, p.compartment = tok)) ∧
      ∀ l, parse_participants s cm km ≠ .ok l := by
  by_cases hs : ∃ p ∈ eq.substrates, cm p.compound = none ∨ km p.compartment = none
  · obtain ⟨role, tok, herr, hprop⟩ := resolveList_miss cm km false eq.substrates hs
    have hres : parse_participants s cm km = .error (.keyError role tok) := by
      simp [parse_participants, hp, herr]
    refine ⟨role, tok, hres, ?_, fun l hl => by simp [hres] at hl⟩
    rcases hprop with ⟨h1, h2, q, hq, h3⟩ | ⟨h1, h2, q, hq, h3⟩
    · exact Or.inl ⟨h1, h2, q, List.mem_append_left _ hq, h3⟩
    · exact Or.inr ⟨h1, h2, q, List.mem_append_left _ hq, h3⟩
  · push_neg at hs
    have hsub_ok : ∀ p ∈ eq.substrates,
        (cm p.compound).isSome ∧ (km p.compartment).isSome := by
      intro p hq
      obtain ⟨h1, h2⟩ := hs p hq
      exact ⟨Option.ne_none_iff_isSome.mp h1, Option.ne_none_iff_isSome.mp h2⟩
    have hsok := resolveList_ok cm km false eq.substrates hsub_ok
    have hpm : ∃ p ∈ eq.products, cm p.compound = none ∨ km p.compartment = none := by
      obtain ⟨q, hq, hm⟩ := hmiss
      rcases List.mem_append.mp hq with hq1 | hq2
      · obtain ⟨h1, h2⟩ := hs q hq1
        rcases hm with hm | hm
        · exact absurd hm h1
        · exact absurd hm h2
      · exact ⟨q, hq2, hm⟩
    obtain ⟨role, tok, herr, hprop⟩ := resolveList_miss cm km true eq.products hpm
    have hres : parse_participants s cm km = .error (.keyError role tok) := by
      simp [parse_participants, hp, hsok, herr]
    refine ⟨role, tok, hres, ?_, fun l hl => by simp [hres] at hl⟩
    rcases hprop with ⟨h1, h2, q, hq, h3⟩ | ⟨h1, h2, q, hq, h3⟩
    · exact Or.inl ⟨h1, h2, q, List.mem_append_right _ hq, h3⟩
    · exact Or.inr ⟨h1, h2, q, List.mem_append_right _ hq, h3⟩

/-- C4 witness: a concrete equation whose compartment `MNXC4` is missing
from the compartment lookup. -/
theorem c4_witness :
    ∃ role tok,
      parse_participants "1 MNXM1@MNXC3 = 1 MNXM9@MNXC4"
        (lookupOf [("MNXM1", 10), ("MNXM9", 12)]) (lookupOf [("MNXC3", 1)]) =
        .error (.keyError role tok) ∧
      ((role = .compound ∧ lookupOf [("MNXM1", 10), ("MNXM9", 12)] tok = none ∧
          ∃ p ∈ ([⟨"1", "MNXM1", "MNXC3"⟩] : List RawParticipant) ++
            [⟨"1", "MNXM9", "MNXC4"⟩], p.compound = tok) ∨
       (role = .compartment ∧ lookupOf [("MNXC3", 1)] tok = none ∧
          ∃ p ∈ ([⟨"1", "MNXM1", "MNXC3"⟩] : List RawParticipant) ++
            [⟨"1", "MNXM9", "MNXC4"⟩], p.compartment = tok)) ∧
      ∀ l, parse_participants "1 MNXM1@MNXC3 = 1 MNXM9@MNXC4"
        (lookupOf [("MNXM1", 10), ("MNXM9", 12)]) (lookupOf [("MNXC3", 1)]) ≠ .ok l :=
  c4_unresolved_token_fails "1 MNXM1@MNXC3 = 1 MNXM9@MNXC4"
    (lookupOf [("MNXM1", 10), ("MNXM9", 12)]) (lookupOf [("MNXC3", 1)])
    ⟨[⟨"1", "MNXM1", "MNXC3"⟩], [⟨"1", "MNXM9", "MNXC4"⟩]⟩
    (by decide) (by decide)

/-- C10: the reserved keywords are not special-cased at resolution.  For
the equation `"2 BIOMASS@BOUNDARY = 1 MNXM1@MNXDX"`, resolution fails with
a lookup miss on `"BIOMASS"` unless the compound mapping has that literal
key, likewise for `"BOUNDARY"` in the compartment mapping, and when all
four tokens (keywords included) are mapped the mapped identifiers appear
in the output. -/
theorem c10_keywords_resolved_via_lookups (cm km : String → Option Int) :
    (cm "BIOMASS" = none →
      parse_participants "2 BIOMASS@BOUNDARY = 1 MNXM1@MNXDX" cm km =
        .error (.keyError .compound "BIOMASS")) ∧
    (∀ a : Int, cm "BIOMASS" = some a → km "BOUNDARY" = none →
      parse_participants "2 BIOMASS@BOUNDARY = 1 MNXM1@MNXDX" cm km =
        .error (.keyError .compartment "BOUNDARY")) ∧
    (∀ a b x y : Int, cm "BIOMASS" = some a → km "BOUNDARY" = some b →
      cm "MNXM1" = some x → km "MNXDX" = some y →
      parse_participants "2 BIOMASS@BOUNDARY = 1 MNXM1@MNXDX" cm km =
        .ok [⟨a, b, "2", false⟩, ⟨x, y, "1", true⟩]) := by
  have hp : parseEquation "2 BIOMASS@BOUNDARY = 1 MNXM1@MNXDX" =
      some ⟨[⟨"2", "BIOMASS", "BOUNDARY"⟩], [⟨"1", "MNXM1", "MNXDX"⟩]⟩ := by decide
  refine ⟨?_, ?_, ?_⟩
  · intro h1
    simp [parse_participants, hp, resolveList, resolveParticipant, h1]
  · intro a h1 h2
    simp [parse_participants, hp, resolveList, resolveParticipant, h1, h2]
  · intro a b x y h1 h2 h3 h4
    simp [parse_participants, hp, resolveList, resolveParticipant, h1, h2, h3, h4]

/-- C10 witness: the third branch of the theorem at a concrete pair of
lookups that do contain the keyword literals. -/
theorem c10_witness :
    parse_participants "2 BIOMASS@BOUNDARY = 1 MNXM1@MNXDX"
      (lookupOf [("BIOMASS", 5), ("MNXM1", 6)])
      (lookupOf [("BOUNDARY", 7), ("MNXDX", 8)]) =
      .ok [⟨5, 7, "2", false⟩, ⟨6, 8, "1", true⟩] :=
  (c10_keywords_resolved_via_lookups
    (lookupOf [("BIOMASS", 5), ("MNXM1", 6)])
    (lookupOf [("BOUNDARY", 7), ("MNXDX", 8)])).2.2 5 7 6 8 rfl rfl rfl rfl

/-- Balanced-group scanner on a parenthesis-free body: it consumes the body
and the closing parenthesis, verbatim. -/
theorem scanBalanced_flat (inner rest : List Char)
    (h : ∀ c ∈ inner, c ≠ '(' ∧ c ≠ ')') :
    scanBalanced 1 (inner ++ ')' :: rest) = some (inner ++ [')'], rest) := by
  induction inner with
  | nil => simp [scanBalanced]
  | cons c cs ih =>
    obtain ⟨h1, h2⟩ := h c (List.mem_cons_self c cs)
    have ih2 := ih (fun d hd => h d (List.mem_cons_of_mem c hd))
    simp [scanBalanced, h1, h2, ih2]

/-- C7: a coefficient is an integer literal, a decimal literal, or a
balanced parenthesised expression accepted verbatim without numeric
validation; the text is carried character-for-character into the resolved
participants' stoichiometry.  The first conjunct covers every
parenthesis-free bracketed body; the second shows `(n)`, the nested
`(2 (n))`, a decimal and an integer flowing verbatim end to end. -/
theorem c7_coefficient_forms :
    (∀ inner rest : List Char, (∀ c ∈ inner, c ≠ '(' ∧ c ≠ ')') →
      pCoefficient ('(' :: inner ++ ')' :: rest) =
        some ('(' :: (inner ++ [')']), rest)) ∧
    parse_participants
      "(n) MNXM1@MNXC3 + (2 (n)) MNXM4@MNXC3 = 3.14 MNXM9@MNXC4 + 7 MNXM1@MNXC3"
      (lookupOf [("MNXM1", 1), ("MNXM4", 2), ("MNXM9", 3)])
      (lookupOf [("MNXC3", 4), ("MNXC4", 5)]) =
      .ok [⟨1, 4, "(n)", false⟩, ⟨2, 4, "(2 (n))", false⟩,
           ⟨3, 5, "3.14", true⟩, ⟨1, 4, "7", true⟩] := by
  constructor
  · intro inner rest h
    have hsk : skipWs ('(' :: inner ++ ')' :: rest) = '(' :: (inner ++ ')' :: rest) := by
      simp [skipWs, List.dropWhile_cons, wsChar]
    unfold pCoefficient
    rw [hsk]
    simp [scanBalanced_flat inner rest h]
  · rfl

/-- C7 witness: the bracketed-coefficient conjunct at the concrete body
`n`. -/
theorem c7_witness :
    pCoefficient ['(', 'n', ')'] = some (['(', 'n', ')'], []) :=
  c7_coefficient_forms.1 ['n'] [] (by decide)

/-- C6: the grammar is a full-string match.  A successful `parseEquation`
means the underlying run consumed the entire input up to trailing
whitespace; a run that leaves non-whitespace input unconsumed makes
`parse_participants` fail with a syntax error (no partial parse is
returned); and a missing `@`, a missing `=`, a duplicated `=`, a malformed
coefficient, an unknown token shape, and trailing garbage are all syntax
errors. -/
theorem c6_full_match_and_syntax_errors :
    (∀ (s : String) (eq : Equation), parseEquation s = some eq →
      ∃ rest, parseRaw s = some (eq, rest) ∧ skipWs rest = []) ∧
    (∀ (s : String) (eq : Equation) (rest : List Char)
        (cm km : String → Option Int),
      parseRaw s = some (eq, rest) → skipWs rest ≠ [] →
      parse_participants s cm km = .error .syntaxError) ∧
    (∀ cm km : String → Option Int,
      parse_participants "1 MNXM1 MNXC3 =" cm km = .error .syntaxError ∧
      parse_participants "1 MNXM1@MNXC3" cm km = .error .syntaxError ∧
      parse_participants "1 MNXM1@MNXC3 = 1 MNXM4@MNXC3 = 1 MNXM9@MNXC4" cm km =
        .error .syntaxError ∧
      parse_participants ".5 MNXM1@MNXC3 = 1 MNXM4@MNXC3" cm km =
        .error .syntaxError ∧
      parse_participants "1 ABC1@MNXC3 = 1 MNXM4@MNXC3" cm km =
        .error .syntaxError ∧
      parse_participants "1 MNXM1@MNXC3 = 1 MNXM4@MNXC3 x" cm km =
        .error .syntaxError) := by
  refine ⟨?_, ?_, ?_⟩
  · intro s eq hp
    cases hraw : parseRaw s with
    | none => simp [parseEquation, hraw] at hp
    | some pr =>
      obtain ⟨eq2, rest⟩ := pr
      by_cases hr : skipWs rest = []
      · have heq : eq2 = eq := by
          simp [parseEquation, hraw, hr] at hp
          exact hp
        exact ⟨rest, by simp [hraw, heq], hr⟩
      · simp [parseEquation, hraw, hr] at hp
  · intro s eq rest cm km hraw hr
    have hpe : parseEquation s = none := by
      simp [parseEquation, hraw, hr]
    simp [parse_participants, hpe]
  · intro cm km
    refine ⟨?_, ?_, ?_, ?_, ?_, ?_⟩
    · have h : parseEquation "1 MNXM1 MNXC3 =" = none := by decide
      simp [parse_participants, h]
    · have h : parseEquation "1 MNXM1@MNXC3" = none := by decide
      simp [parse_participants, h]
    · have h : parseEquation "1 MNXM1@MNXC3 = 1 MNXM4@MNXC3 = 1 MNXM9@MNXC4" = none := by
        decide
      simp [parse_participants, h]
    · have h : parseEquation ".5 MNXM1@MNXC3 = 1 MNXM4@MNXC3" = none := by decide
      simp [parse_participants, h]
    · have h : parseEquation "1 ABC1@MNXC3 = 1 MNXM4@MNXC3" = none := by decide
      simp [parse_participants, h]
    · have h : parseEquation "1 MNXM1@MNXC3 = 1 MNXM4@MNXC3 x" = none := by decide
      simp [parse_participants, h]

/-- C6 witness: the no-partial-parse conjunct at a concrete input with
trailing garbage. -/
theorem c6_witness :
    parse_participants "1 MNXM1@MNXC3 = 1 MNXM9@MNXC4 !" emptyLookup emptyLookup =
      .error .syntaxError :=
  c6_full_match_and_syntax_errors.2.1 "1 MNXM1@MNXC3 = 1 MNXM9@MNXC4 !"
    ⟨[⟨"1", "MNXM1", "MNXC3"⟩], [⟨"1", "MNXM9", "MNXC4"⟩]⟩ [' ', '!']
    emptyLookup emptyLookup (by decide) (by decide)

/-- Literal matching consumes exactly the literal. -/
theorem matchChars_eq (pre : List Char) :
    ∀ s r, matchChars pre s = some r → s = pre ++ r := by
  induction pre with
  | nil =>
    intro s r h
    simp only [matchChars, Option.some.injEq] at h
    simp [h]
  | cons c cs ih =>
    intro s r h
    cases s with
    | nil => simp [matchChars] at h
    | cons d s2 =>
      simp only [matchChars] at h
      by_cases hd : d = c
      · rw [if_pos hd] at h
        rw [hd, ih s2 r h]
        rfl
      · rw [if_neg hd] at h
        exact absurd h (by simp)

/-- The token of a fixed-shape identifier match is exactly the consumed
text. -/
theorem pFixedDigits_eq (pre s t r : List Char)
    (h : pFixedDigits pre s = some (t, r)) : s = t ++ r := by
  unfold pFixedDigits at h
  cases hm : matchChars pre s with
  | none => rw [hm] at h; exact absurd h (by simp)
  | some rr =>
    rw [hm] at h
    dsimp only at h
    by_cases hds : (rr.takeWhile digitChar).isEmpty
    · rw [if_pos hds] at h
      exact absurd h (by simp)
    · rw [if_neg hds] at h
      simp only [Option.some.injEq, Prod.mk.injEq] at h
      obtain ⟨h1, h2⟩ := h
      rw [matchChars_eq pre s rr hm, ← h1, ← h2, List.append_assoc,
        List.takeWhile_append_dropWhile]

/-- A keyword match consumes exactly the keyword text. -/
theorem pKeyword_eq (kw : List Char) (ok : Bool) (s t r : List Char)
    (h : pKeyword kw ok s = some (t, r)) : s = t ++ r ∧ t = kw := by
  unfold pKeyword at h
  cases ok with
  | false => exact absurd h (by simp)
  | true =>
    rw [if_pos rfl] at h
    cases hm : matchChars kw s with
    | none => rw [hm] at h; exact absurd h (by simp)
    | some rr =>
      rw [hm] at h
      cases rr with
      | nil =>
        simp only [Option.some.injEq, Prod.mk.injEq] at h
        obtain ⟨h1, h2⟩ := h
        subst h1; subst h2
        exact ⟨matchChars_eq kw s [] hm, rfl⟩
      | cons d rest =>
        by_cases hid : identChar d
        · simp [hid] at h
        · simp only [hid, Bool.false_eq_true, if_false, Option.some.injEq,
            Prod.mk.injEq] at h
          obtain ⟨h1, h2⟩ := h
          subst h1; subst h2
          exact ⟨matchChars_eq kw s _ hm, rfl⟩

/-- The compound rule consumes leading whitespace and then exactly the
returned token. -/
theorem pCompound_split (prev : Char) (s t r : List Char)
    (h : pCompound prev s = some (t, r)) :
    ∃ w, (∀ c ∈ w, wsChar c = true) ∧ s = w ++ t ++ r := by
  obtain ⟨hw, hs⟩ := skipWs_decomp s
  unfold pCompound at h
  cases hfd : pFixedDigits ['M', 'N', 'X', 'M'] (skipWs s) with
  | some res =>
    rw [hfd] at h
    obtain ⟨t2, r2⟩ := res
    simp only [Option.some.injEq, Prod.mk.injEq] at h
    obtain ⟨h1, h2⟩ := h
    subst h1; subst h2
    refine ⟨s.takeWhile wsChar, hw, ?_⟩
    rw [List.append_assoc, ← pFixedDigits_eq _ _ _ _ hfd]
    exact hs
  | none =>
    rw [hfd] at h
    obtain ⟨h1, _⟩ := pKeyword_eq _ _ _ _ _ h
    refine ⟨s.takeWhile wsChar, hw, ?_⟩
    rw [List.append_assoc, ← h1]
    exact hs

/-- The compartment rule consumes leading whitespace and then exactly the
returned token. -/
theorem pCompartment_split (prev : Char) (s t r : List Char)
    (h : pCompartment prev s = some (t, r)) :
    ∃ w, (∀ c ∈ w, wsChar c = true) ∧ s = w ++ t ++ r := by
  obtain ⟨hw, hs⟩ := skipWs_decomp s
  refine ⟨s.takeWhile wsChar, hw, ?_⟩
  rw [List.append_assoc]
  unfold pCompartment at h
  cases h1 : pFixedDigits ['M', 'N', 'X', 'C'] (skipWs s) with
  | some res =>
    rw [h1] at h
    obtain ⟨t2, r2⟩ := res
    simp only [Option.some.injEq, Prod.mk.injEq] at h
    obtain ⟨ht, hr⟩ := h
    subst ht; subst hr
    rw [← pFixedDigits_eq _ _ _ _ h1]
    exact hs
  | none =>
    rw [h1] at h
    cases h2 : pFixedDigits ['M', 'N', 'X', 'D'] (skipWs s) with
    | some res =>
      rw [h2] at h
      obtain ⟨t2, r2⟩ := res
      simp only [Option.some.injEq, Prod.mk.injEq] at h
      obtain ⟨ht, hr⟩ := h
      subst ht; subst hr
      rw [← pFixedDigits_eq _ _ _ _ h2]
      exact hs
    | none =>
      rw [h2] at h
      cases h3 : matchChars ['M', 'N', 'X', 'D', 'X'] (skipWs s) with
      | some rr =>
        rw [h3] at h
        simp only [Option.some.injEq, Prod.mk.injEq] at h
        obtain ⟨ht, hr⟩ := h
        subst ht; subst hr
        rw [← matchChars_eq _ _ _ h3]
        exact hs
      | none =>
        rw [h3] at h
        obtain ⟨hkw, _⟩ := pKeyword_eq _ _ _ _ _ h
        rw [← hkw]
        exact hs

/-- The balanced-group scanner consumes exactly the returned text. -/
theorem scanBalanced_eq :
    ∀ (s : List Char) (d : Nat) (t r : List Char),
      scanBalanced d s = some (t, r) → s = t ++ r := by
  intro s
  induction s with
  | nil => intro d t r h; simp [scanBalanced] at h
  | cons c cs ih =>
    intro d t r h
    simp only [scanBalanced] at h
    by_cases h1 : c = '('
    · rw [if_pos h1] at h
      cases hrec : scanBalanced (d + 1) cs with
      | none => rw [hrec] at h; simp at h
      | some pr =>
        obtain ⟨t2, r2⟩ := pr
        rw [hrec] at h
        simp only [Option.map_some', Option.some.injEq, Prod.mk.injEq] at h
        obtain ⟨ht, hr⟩ := h
        subst ht; subst hr
        rw [List.cons_append, ← ih (d + 1) t2 r2 hrec]
    · rw [if_neg h1] at h
      by_cases h2 : c = ')'
      · rw [if_pos h2] at h
        cases d with
        | zero => simp at h
        | succ d2 =>
          cases d2 with
          | zero =>
            simp only [Option.some.injEq, Prod.mk.injEq] at h
            obtain ⟨ht, hr⟩ := h
            subst ht; subst hr
            rfl
          | succ d3 =>
            dsimp only at h
            cases hrec : scanBalanced (d3 + 1) cs with
            | none => rw [hrec] at h; simp at h
            | some pr =>
              obtain ⟨t2, r2⟩ := pr
              rw [hrec] at h
              simp only [Option.map_some', Option.some.injEq, Prod.mk.injEq] at h
              obtain ⟨ht, hr⟩ := h
              subst ht; subst hr
              rw [List.cons_append, ← ih _ t2 r2 hrec]
      · rw [if_neg h2] at h
        cases hrec : scanBalanced d cs with
        | none => rw [hrec] at h; simp at h
        | some pr =>
          obtain ⟨t2, r2⟩ := pr
          rw [hrec] at h
          simp only [Option.map_some', Option.some.injEq, Prod.mk.injEq] at h
          obtain ⟨ht, hr⟩ := h
          subst ht; subst hr
          rw [List.cons_append, ← ih d t2 r2 hrec]

/-- The numeric-coefficient rule consumes exactly the returned token. -/
theorem pNumCoef_eq (s1 t r : List Char) (h : pNumCoef s1 = some (t, r)) :
    s1 = t ++ r := by
  unfold pNumCoef at h
  by_cases hds : (s1.takeWhile digitChar).isEmpty
  · rw [if_pos hds] at h
    exact absurd h (by simp)
  · rw [if_neg hds] at h
    cases hr1 : s1.dropWhile digitChar with
    | nil =>
      rw [hr1] at h
      simp only [Option.some.injEq, Prod.mk.injEq] at h
      obtain ⟨ht, hrr⟩ := h
      subst ht; subst hrr
      rw [← hr1, List.takeWhile_append_dropWhile]
    | cons c r2 =>
      rw [hr1] at h
      dsimp only at h
      by_cases hc : c = '.'
      · rw [if_pos hc] at h
        by_cases hds2 : (r2.takeWhile digitChar).isEmpty
        · rw [if_pos hds2] at h
          simp only [Option.some.injEq, Prod.mk.injEq] at h
          obtain ⟨ht, hrr⟩ := h
          subst ht; subst hrr
          rw [← hr1, List.takeWhile_append_dropWhile]
        · rw [if_neg hds2] at h
          simp only [Option.some.injEq, Prod.mk.injEq] at h
          obtain ⟨ht, hrr⟩ := h
          subst ht; subst hrr
          conv_lhs => rw [← List.takeWhile_append_dropWhile digitChar s1]
          rw [hr1]
          simp [List.takeWhile_append_dropWhile]
      · rw [if_neg hc] at h
        simp only [Option.some.injEq, Prod.mk.injEq] at h
        obtain ⟨ht, hrr⟩ := h
        subst ht; subst hrr
        rw [← hr1, List.takeWhile_append_dropWhile]

/-- The coefficient rule consumes leading whitespace and then exactly the
captured verbatim text. -/
theorem pCoefficient_split (s t r : List Char)
    (h : pCoefficient s = some (t, r)) :
    ∃ w, (∀ c ∈ w, wsChar c = true) ∧ s = w ++ t ++ r := by
  obtain ⟨hw, hs⟩ := skipWs_decomp s
  refine ⟨s.takeWhile wsChar, hw, ?_⟩
  rw [List.append_assoc]
  unfold pCoefficient at h
  cases hsk : skipWs s with
  | nil => rw [hsk] at h; exact absurd h (by simp)
  | cons c cs =>
    rw [hsk] at h
    dsimp only at h
    rw [hsk] at hs
    by_cases hc : c = '('
    · rw [if_pos hc] at h
      cases hsc : scanBalanced 1 cs with
      | none => rw [hsc] at h; exact absurd h (by simp)
      | some pr =>
        obtain ⟨t2, r2⟩ := pr
        rw [hsc] at h
        simp only [Option.some.injEq, Prod.mk.injEq] at h
        obtain ⟨ht, hrr⟩ := h
        subst ht; subst hrr
        have hcs : cs = t2 ++ r2 := scanBalanced_eq cs 1 t2 r2 hsc
        conv_lhs => rw [hs, hcs]
        simp
    · rw [if_neg hc] at h
      have hnc := pNumCoef_eq _ _ _ h
      conv_lhs => rw [hs, hnc]

/-- A literal match consumes leading whitespace and then exactly the
literal character. -/
theorem pLit_split (c : Char) (s r : List Char) (h : pLit c s = some r) :
    ∃ w, (∀ d ∈ w, wsChar d = true) ∧ s = w ++ c :: r := by
  obtain ⟨hw, hs⟩ := skipWs_decomp s
  refine ⟨s.takeWhile wsChar, hw, ?_⟩
  unfold pLit at h
  cases hsk : skipWs s with
  | nil => rw [hsk] at h; exact absurd h (by simp)
  | cons d rest =>
    rw [hsk] at h
    dsimp only at h
    by_cases hd : d = c
    · rw [if_pos hd] at h
      simp only [Option.some.injEq] at h
      subst h
      rw [hsk, hd] at hs
      exact hs
    · rw [if_neg hd] at h
      exact absurd h (by simp)

/-- A parsed participant's consumed text equals its serialisation up to
whitespace removal. -/
theorem pParticipant_split (s : List Char) (p : RawParticipant) (r : List Char)
    (h : pParticipant s = some (p, r)) :
    ∃ pre, s = pre ++ r ∧ stripWs pre = stripWs (serializeParticipant p) := by
  unfold pParticipant at h
  cases h1 : pCoefficient s with
  | none => rw [h1] at h; exact absurd h (by simp)
  | some pr1 =>
    obtain ⟨coef, s1⟩ := pr1
    rw [h1] at h
    dsimp only at h
    cases h2 : pCompound (coef.getLastD ' ') s1 with
    | none => rw [h2] at h; exact absurd h (by simp)
    | some pr2 =>
      obtain ⟨cpd, s2⟩ := pr2
      rw [h2] at h
      dsimp only at h
      cases h3 : pLit '@' s2 with
      | none => rw [h3] at h; exact absurd h (by simp)
      | some s3 =>
        rw [h3] at h
        dsimp only at h
        cases h4 : pCompartment '@' s3 with
        | none => rw [h4] at h; exact absurd h (by simp)
        | some pr4 =>
          obtain ⟨cpt, s4⟩ := pr4
          rw [h4] at h
          dsimp only at h
          simp only [Option.some.injEq, Prod.mk.injEq] at h
          obtain ⟨hpp, hrr⟩ := h
          subst hpp; subst hrr
          obtain ⟨w1, hw1, e1⟩ := pCoefficient_split s coef s1 h1
          obtain ⟨w2, hw2, e2⟩ := pCompound_split _ s1 cpd s2 h2
          obtain ⟨w3, hw3, e3⟩ := pLit_split '@' s2 s3 h3
          obtain ⟨w4, hw4, e4⟩ := pCompartment_split '@' s3 cpt s4 h4
          refine ⟨w1 ++ coef ++ (w2 ++ cpd ++ (w3 ++ '@' :: (w4 ++ cpt))), ?_, ?_⟩
          · conv_lhs => rw [e1, e2, e3, e4]
            simp
          · have g1 := stripWs_wsOnly w1 hw1
            have g2 := stripWs_wsOnly w2 hw2
            have g3 := stripWs_wsOnly w3 hw3
            have g4 := stripWs_wsOnly w4 hw4
            have gat : wsChar '@' = false := by decide
            simp [serializeParticipant, stripWs_append, g1, g2, g3, g4,
              stripWs_cons_not _ _ gat]

/-- The repetition part of `delimitedList` consumes text equal, up to
whitespace, to the serialisation of the participants it returns. -/
theorem pMoreParticipants_split :
    ∀ (fuel : Nat) (s : List Char) (ps : List RawParticipant) (r : List Char),
      pMoreParticipants fuel s = (ps, r) →
      ∃ pre, s = pre ++ r ∧ stripWs pre = stripWs (serializeRest ps) := by
  intro fuel
  induction fuel with
  | zero =>
    intro s ps r h
    simp only [pMoreParticipants, Prod.mk.injEq] at h
    obtain ⟨h1, h2⟩ := h
    subst h1; subst h2
    exact ⟨[], by simp, by simp [serializeRest, stripWs]⟩
  | succ fuel ih =>
    intro s ps r h
    simp only [pMoreParticipants] at h
    cases h1 : pLit '+' s with
    | none =>
      rw [h1] at h
      dsimp only at h
      simp only [Prod.mk.injEq] at h
      obtain ⟨h2, h3⟩ := h
      subst h2; subst h3
      exact ⟨[], by simp, by simp [serializeRest, stripWs]⟩
    | some s1 =>
      rw [h1] at h
      dsimp only at h
      cases h2 : pParticipant s1 with
      | none =>
        rw [h2] at h
        dsimp only at h
        simp only [Prod.mk.injEq] at h
        obtain ⟨h3, h4⟩ := h
        subst h3; subst h4
        exact ⟨[], by simp, by simp [serializeRest, stripWs]⟩
      | some pr =>
        obtain ⟨p, s2⟩ := pr
        rw [h2] at h
        dsimp only at h
        cases hrec : pMoreParticipants fuel s2 with
        | mk ps2 r2 =>
          rw [hrec] at h
          dsimp only at h
          simp only [Prod.mk.injEq] at h
          obtain ⟨h3, h4⟩ := h
          subst h3; subst h4
          obtain ⟨w, hw, e0⟩ := pLit_split '+' s s1 h1
          obtain ⟨pre1, e1, st1⟩ := pParticipant_split s1 p s2 h2
          obtain ⟨pre2, e2, st2⟩ := ih s2 ps2 r2 hrec
          refine ⟨w ++ '+' :: (pre1 ++ pre2), ?_, ?_⟩
          · conv_lhs => rw [e0, e1, e2]
            simp
          · have gplus : wsChar '+' = false := by decide
            simp [serializeRest, stripWs_append, stripWs_wsOnly w hw,
              stripWs_cons_not _ _ gplus, st1, st2]

/-- A parsed participant list consumes text equal, up to whitespace, to
the serialisation of one side of the equation. -/
theorem pParticipantList_split (fuel : Nat) (s : List Char)
    (ps : List RawParticipant) (r : List Char)
    (h : pParticipantList fuel s = some (ps, r)) :
    ∃ pre, s = pre ++ r ∧ stripWs pre = stripWs (serializeSide ps) := by
  unfold pParticipantList at h
  cases h1 : pParticipant s with
  | none => rw [h1] at h; exact absurd h (by simp)
  | some pr =>
    obtain ⟨p, s1⟩ := pr
    rw [h1] at h
    dsimp only at h
    cases hrec : pMoreParticipants fuel s1 with
    | mk ps2 r2 =>
      rw [hrec] at h
      dsimp only at h
      simp only [Option.some.injEq, Prod.mk.injEq] at h
      obtain ⟨h2, h3⟩ := h
      subst h2; subst h3
      obtain ⟨pre1, e1, st1⟩ := pParticipant_split s p s1 h1
      obtain ⟨pre2, e2, st2⟩ := pMoreParticipants_split fuel s1 ps2 r2 hrec
      refine ⟨pre1 ++ pre2, ?_, ?_⟩
      · conv_lhs => rw [e1, e2]
        simp
      · simp [serializeSide, stripWs_append, st1, st2]

/-- A parsed reaction consumes text equal, up to whitespace, to the
serialisation of the whole equation. -/
theorem pReaction_split (fuel : Nat) (s : List Char) (eq : Equation)
    (r : List Char) (h : pReaction fuel s = some (eq, r)) :
    ∃ pre, s = pre ++ r ∧ stripWs pre = stripWs (serializeEquation eq) := by
  unfold pReaction at h
  cases h1 : pParticipantList fuel s with
  | none => rw [h1] at h; exact absurd h (by simp)
  | some pr1 =>
    obtain ⟨subs, s1⟩ := pr1
    rw [h1] at h
    dsimp only at h
    cases h2 : pLit '=' s1 with
    | none => rw [h2] at h; exact absurd h (by simp)
    | some s2 =>
      rw [h2] at h
      dsimp only at h
      cases h3 : pParticipantList fuel s2 with
      | none => rw [h3] at h; exact absurd h (by simp)
      | some pr3 =>
        obtain ⟨prods, s3⟩ := pr3
        rw [h3] at h
        dsimp only at h
        simp only [Option.some.injEq, Prod.mk.injEq] at h
        obtain ⟨h4, h5⟩ := h
        subst h4; subst h5
        obtain ⟨pre1, e1, st1⟩ := pParticipantList_split fuel s subs s1 h1
        obtain ⟨w, hw, e2⟩ := pLit_split '=' s1 s2 h2
        obtain ⟨pre3, e3, st3⟩ := pParticipantList_split fuel s2 prods s3 h3
        refine ⟨pre1 ++ (w ++ '=' :: pre3), ?_, ?_⟩
        · conv_lhs => rw [e1, e2, e3]
          simp
        · have geq : wsChar '=' = false := by decide
          simp [serializeEquation, stripWs_append, stripWs_wsOnly w hw,
            stripWs_cons_not _ _ geq, st1, st3]

/-- C8: round trip.  Whenever an equation text parses, re-serialising the
captured participants as `<coef><compound>@<compartment>`, joined by `+`
within a side and `=` between sides, reproduces the original input up to
whitespace normalisation (equality of the whitespace-stripped texts). -/
theorem c8_round_trip (s : String) (eq : Equation)
    (hp : parseEquation s = some eq) :
    stripWs s.data = stripWs (serializeEquation eq) := by
  cases hraw : parseRaw s with
  | none => simp [parseEquation, hraw] at hp
  | some pr =>
    obtain ⟨eq2, rest⟩ := pr
    by_cases hr : skipWs rest = []
    · have heq : eq2 = eq := by
        simp [parseEquation, hraw, hr] at hp
        exact hp
      subst heq
      obtain ⟨pre, e1, e2⟩ := pReaction_split s.length s.data eq2 rest hraw
      have hrest : ∀ c ∈ rest, wsChar c = true := List.dropWhile_eq_nil_iff.mp hr
      rw [e1, stripWs_append, e2, stripWs_wsOnly rest hrest, List.append_nil]
    · simp [parseEquation, hraw, hr] at hp

/-- C8 witness: the round-trip theorem at a concrete equation text with
irregular whitespace; both sides strip to the same character list. -/
theorem c8_witness :
    stripWs " 1  MNXM1@MNXC3 +(n) MNXM4@MNXC3=  3.14 BIOMASS@BOUNDARY ".data =
      stripWs (serializeEquation
        ⟨[⟨"1", "MNXM1", "MNXC3"⟩, ⟨"(n)", "MNXM4", "MNXC3"⟩],
         [⟨"3.14", "BIOMASS", "BOUNDARY"⟩]⟩) :=
  c8_round_trip " 1  MNXM1@MNXC3 +(n) MNXM4@MNXC3=  3.14 BIOMASS@BOUNDARY "
    ⟨[⟨"1", "MNXM1", "MNXC3"⟩, ⟨"(n)", "MNXM4", "MNXC3"⟩],
     [⟨"3.14", "BIOMASS", "BOUNDARY"⟩]⟩ (by decide)

/-- Characters that may legitimately follow a participant inside an
equation text: nothing, whitespace, the `+` delimiter, or the `=`
separator. -/
def sepStart : List Char → Bool
  | [] => true
  | c :: _ => wsChar c || c = '+' || c = '='

theorem sepStart_cases (c : Char) (x : List Char)
    (h : sepStart (c :: x) = true) :
    c = ' ' ∨ c = '\n' ∨ c = '\t' ∨ c = '+' ∨ c = '=' := by
  simp [sepStart, wsChar] at h
  tauto

theorem skipWs_cons_not (c : Char) (s : List Char) (h : wsChar c = false) :
    skipWs (c :: s) = c :: s := by
  simp [skipWs, List.dropWhile_cons, h]

theorem matchChars_self (pre z : List Char) :
    matchChars pre (pre ++ z) = some z := by
  induction pre with
  | nil => rfl
  | cons c cs ih => simp [matchChars, ih]

/-- Appending more input after a successful fixed-shape match does not
change the token, provided the appended text cannot extend the digit run
when the match had consumed the whole input. -/
theorem pFixedDigits_append (pre s t r x : List Char)
    (h : pFixedDigits pre s = some (t, r))
    (hx : r = [] → sepStart x = true) :
    pFixedDigits pre (s ++ x) = some (t, r ++ x) := by
  unfold pFixedDigits at h ⊢
  cases hm : matchChars pre s with
  | none => rw [hm] at h; exact absurd h (by simp)
  | some rr =>
    rw [hm] at h
    dsimp only at h
    by_cases hds : (rr.takeWhile digitChar).isEmpty
    · rw [if_pos hds] at h
      exact absurd h (by simp)
    · rw [if_neg hds] at h
      simp only [Option.some.injEq, Prod.mk.injEq] at h
      obtain ⟨ht, hr⟩ := h
      have hseq : s ++ x = pre ++ (rr ++ x) := by
        rw [matchChars_eq pre s rr hm]
        simp
      rw [hseq, matchChars_self]
      dsimp only
      cases hdr : rr.dropWhile digitChar with
      | nil =>
        have hall : ∀ c ∈ rr, digitChar c = true := List.dropWhile_eq_nil_iff.mp hdr
        have htw : rr.takeWhile digitChar = rr := by
          have h0 := List.takeWhile_append_dropWhile digitChar rr
          rw [hdr, List.append_nil] at h0
          exact h0
        rw [hdr] at hr
        subst hr
        have hxt : x.takeWhile digitChar = [] := by
          cases hx3 : x with
          | nil => simp
          | cons c cs =>
            have hc := sepStart_cases c cs (by rw [← hx3]; exact hx rfl)
            have hcd : digitChar c = false := by
              rcases hc with rfl | rfl | rfl | rfl | rfl <;> decide
            simp [List.takeWhile_cons, hcd]
        have hxd : x.dropWhile digitChar = x := by
          cases hx3 : x with
          | nil => simp
          | cons c cs =>
            have hc := sepStart_cases c cs (by rw [← hx3]; exact hx rfl)
            have hcd : digitChar c = false := by
              rcases hc with rfl | rfl | rfl | rfl | rfl <;> decide
            simp [List.dropWhile_cons, hcd]
        rw [takeWhile_all_append rr x hall, dropWhile_append_all rr x hall, hxt, hxd,
          List.append_nil]
        rw [if_neg (by rw [htw] at hds; simpa using hds)]
        rw [← ht, htw]
        simp
      | cons d ds =>
        have hne : rr.dropWhile digitChar ≠ [] := by rw [hdr]; simp
        rw [takeWhile_append_ne_nil rr x hne, dropWhile_append_ne_nil rr x hne]
        rw [if_neg hds, ← ht, ← hr]

theorem pKeyword_no_match (kw : List Char) (ok : Bool) (s : List Char)
    (h : matchChars kw s = none) : pKeyword kw ok s = none := by
  unfold pKeyword
  cases ok with
  | false => rfl
  | true => rw [if_pos rfl, h]

/-- Appending more input after a successful keyword match does not change
the result, provided the appended text does not start with a keyword
identifier character when the keyword had consumed the whole input. -/
theorem pKeyword_append (kw : List Char) (ok : Bool) (s t r x : List Char)
    (h : pKeyword kw ok s = some (t, r))
    (hx : r = [] → sepStart x = true) :
    pKeyword kw ok (s ++ x) = some (t, r ++ x) := by
  obtain ⟨hs, htk⟩ := pKeyword_eq kw ok s t r h
  subst htk
  unfold pKeyword at h ⊢
  cases ok with
  | false => exact absurd h (by simp)
  | true =>
    rw [if_pos rfl] at h ⊢
    have hseq : s ++ x = t ++ (r ++ x) := by rw [hs]; simp
    rw [hseq, matchChars_self]
    cases hr : r with
    | nil =>
      subst hr
      cases hx2 : x with
      | nil => simp
      | cons c cs =>
        have hc := sepStart_cases c cs (by rw [← hx2]; exact hx rfl)
        have hcid : identChar c = false := by
          rcases hc with rfl | rfl | rfl | rfl | rfl <;> decide
        simp [hcid]
    | cons d ds =>
      rw [hr] at h
      cases hm : matchChars t s with
      | none => rw [hm] at h; exact absurd h (by simp)
      | some rr =>
        rw [hm] at h
        dsimp only at h
        have hrr : rr = d :: ds := by
          have h2 := matchChars_eq t s rr hm
          rw [hs, hr] at h2
          exact (List.append_cancel_left h2).symm
        rw [hrr] at h
        dsimp only at h
        rw [List.cons_append]
        dsimp only
        by_cases hid : identChar d
        · rw [if_pos hid] at h
          exact absurd h (by simp)
        · rw [if_neg hid] at h
          rw [if_neg hid]

theorem sepStart_no_digits (x : List Char) (h : sepStart x = true) :
    x.takeWhile digitChar = [] ∧ x.dropWhile digitChar = x ∧ ∀ z, x ≠ '.' :: z := by
  cases x with
  | nil => simp
  | cons c cs =>
    have hc := sepStart_cases c cs h
    have hcd : digitChar c = false := by
      rcases hc with rfl | rfl | rfl | rfl | rfl <;> decide
    have hcp : c ≠ '.' := by
      rcases hc with rfl | rfl | rfl | rfl | rfl <;> decide
    refine ⟨by simp [List.takeWhile_cons, hcd], by simp [List.dropWhile_cons, hcd], ?_⟩
    intro z hz
    injection hz with h1 _
    exact hcp h1

/-- Appending input after a balanced group leaves the captured group
unchanged (the scan ends at its closing parenthesis). -/
theorem scanBalanced_append :
    ∀ (s : List Char) (d : Nat) (t r x : List Char),
      scanBalanced d s = some (t, r) → scanBalanced d (s ++ x) = some (t, r ++ x) := by
  intro s
  induction s with
  | nil => intro d t r x h; simp [scanBalanced] at h
  | cons c cs ih =>
    intro d t r x h
    simp only [scanBalanced, List.cons_append, List.append_eq] at h ⊢
    by_cases h1 : c = '('
    · rw [if_pos h1] at h ⊢
      cases hrec : scanBalanced (d + 1) cs with
      | none => rw [hrec] at h; simp at h
      | some pr =>
        obtain ⟨t2, r2⟩ := pr
        rw [hrec] at h
        simp only [Option.map_some', Option.some.injEq, Prod.mk.injEq] at h
        obtain ⟨ht, hr⟩ := h
        rw [ih (d + 1) t2 r2 x hrec]
        simp [← ht, ← hr]
    · rw [if_neg h1] at h ⊢
      by_cases h2 : c = ')'
      · rw [if_pos h2] at h ⊢
        cases d with
        | zero => simp at h
        | succ d2 =>
          cases d2 with
          | zero =>
            simp only [Option.some.injEq, Prod.mk.injEq] at h
            obtain ⟨ht, hr⟩ := h
            simp [← ht, ← hr]
          | succ d3 =>
            dsimp only at h ⊢
            cases hrec : scanBalanced (d3 + 1) cs with
            | none => rw [hrec] at h; simp at h
            | some pr =>
              obtain ⟨t2, r2⟩ := pr
              rw [hrec] at h
              simp only [Option.map_some', Option.some.injEq, Prod.mk.injEq] at h
              obtain ⟨ht, hr⟩ := h
              rw [ih (d3 + 1) t2 r2 x hrec]
              simp [← ht, ← hr]
      · rw [if_neg h2] at h ⊢
        cases hrec : scanBalanced d cs with
        | none => rw [hrec] at h; simp at h
        | some pr =>
          obtain ⟨t2, r2⟩ := pr
          rw [hrec] at h
          simp only [Option.map_some', Option.some.injEq, Prod.mk.injEq] at h
          obtain ⟨ht, hr⟩ := h
          rw [ih d t2 r2 x hrec]
          simp [← ht, ← hr]

/-- Appending input after a numeric coefficient leaves the captured
literal unchanged, provided the appended text starts with a separator
when the literal had consumed the whole input or left only a bare dot. -/
theorem pNumCoef_append (s t r x : List Char)
    (h : pNumCoef s = some (t, r))
    (hx : (r = [] ∨ r = ['.']) → sepStart x = true) :
    pNumCoef (s ++ x) = some (t, r ++ x) := by
  unfold pNumCoef at h ⊢
  dsimp only at h ⊢
  by_cases hds : (s.takeWhile digitChar).isEmpty
  · rw [if_pos hds] at h
    exact absurd h (by simp)
  · rw [if_neg hds] at h
    cases hr1 : s.dropWhile digitChar with
    | nil =>
      rw [hr1] at h
      dsimp only at h
      simp only [Option.some.injEq, Prod.mk.injEq] at h
      obtain ⟨ht, hrr⟩ := h
      have hall : ∀ c ∈ s, digitChar c = true := List.dropWhile_eq_nil_iff.mp hr1
      have hsep : sepStart x = true := hx (Or.inl hrr.symm)
      obtain ⟨hxt, hxd, -⟩ := sepStart_no_digits x hsep
      have htw : s.takeWhile digitChar = s := by
        have h0 := List.takeWhile_append_dropWhile digitChar s
        rw [hr1, List.append_nil] at h0
        exact h0
      rw [takeWhile_all_append s x hall, dropWhile_append_all s x hall, hxt, hxd,
        List.append_nil]
      rw [if_neg (by rw [htw] at hds; simpa using hds)]
      cases hx2 : x with
      | nil =>
        dsimp only
        rw [← ht, htw, ← hrr]
        simp
      | cons c cs =>
        have hc := sepStart_cases c cs (by rw [← hx2]; exact hsep)
        have hcp : ¬c = '.' := by
          rcases hc with rfl | rfl | rfl | rfl | rfl <;> decide
        dsimp only
        rw [if_neg hcp, ← ht, htw, ← hrr]
        simp
    | cons c1 rest1 =>
      rw [hr1] at h
      dsimp only at h
      have hne : s.dropWhile digitChar ≠ [] := by rw [hr1]; simp
      rw [takeWhile_append_ne_nil s x hne, dropWhile_append_ne_nil s x hne, hr1,
        if_neg hds, List.cons_append]
      dsimp only
      by_cases hcp : c1 = '.'
      · rw [if_pos hcp] at h ⊢
        by_cases hds2 : (rest1.takeWhile digitChar).isEmpty
        · rw [if_pos hds2] at h
          simp only [Option.some.injEq, Prod.mk.injEq] at h
          obtain ⟨ht, hrr⟩ := h
          cases hrest : rest1 with
          | nil =>
            subst hrest
            have hsep : sepStart x = true := by
              refine hx (Or.inr ?_)
              rw [← hrr, hcp]
            obtain ⟨hxt, hxd, -⟩ := sepStart_no_digits x hsep
            simp only [List.nil_append]
            rw [if_pos (by rw [hxt]; rfl)]
            rw [← ht, ← hrr]
            simp
          | cons c2 rest2 =>
            subst hrest
            have hc2 : digitChar c2 = false := by
              by_cases hd2 : digitChar c2
              · simp [List.takeWhile_cons, hd2] at hds2
              · simpa using hd2
            rw [if_pos (by simp [List.takeWhile_cons, hc2])]
            rw [← ht, ← hrr]
            simp
        · rw [if_neg hds2] at h
          simp only [Option.some.injEq, Prod.mk.injEq] at h
          obtain ⟨ht, hrr⟩ := h
          cases hdr2 : rest1.dropWhile digitChar with
          | nil =>
            have hsep : sepStart x = true := by
              refine hx (Or.inl ?_)
              rw [← hrr, hdr2]
            obtain ⟨hxt, hxd, -⟩ := sepStart_no_digits x hsep
            have hall2 : ∀ c ∈ rest1, digitChar c = true :=
              List.dropWhile_eq_nil_iff.mp hdr2
            have htw2 : rest1.takeWhile digitChar = rest1 := by
              have h0 := List.takeWhile_append_dropWhile digitChar rest1
              rw [hdr2, List.append_nil] at h0
              exact h0
            rw [takeWhile_all_append rest1 x hall2, dropWhile_append_all rest1 x hall2,
              hxt, hxd, List.append_nil]
            rw [if_neg (by rw [htw2] at hds2; simpa using hds2)]
            rw [← ht, htw2, ← hrr, hdr2]
            simp
          | cons d3 ds3 =>
            have hne2 : rest1.dropWhile digitChar ≠ [] := by rw [hdr2]; simp
            rw [takeWhile_append_ne_nil rest1 x hne2,
              dropWhile_append_ne_nil rest1 x hne2]
            rw [if_neg hds2, ← ht, ← hrr]
      · rw [if_neg hcp] at h ⊢
        simp only [Option.some.injEq, Prod.mk.injEq] at h
        obtain ⟨ht, hrr⟩ := h
        rw [← ht, ← hrr]
        simp

/-- Appending input after a parsed coefficient leaves the captured text
unchanged under the same separator-start proviso. -/
theorem pCoefficient_append (s t r x : List Char)
    (h : pCoefficient s = some (t, r))
    (hx : (r = [] ∨ r = ['.']) → sepStart x = true) :
    pCoefficient (s ++ x) = some (t, r ++ x) := by
  unfold pCoefficient at h ⊢
  cases hsk : skipWs s with
  | nil => rw [hsk] at h; exact absurd h (by simp)
  | cons c cs =>
    rw [hsk] at h
    dsimp only at h
    have hne : skipWs s ≠ [] := by rw [hsk]; simp
    rw [skipWs_append_ne_nil s x hne, hsk, List.cons_append]
    dsimp only
    by_cases hc : c = '('
    · rw [if_pos hc] at h ⊢
      cases hsc : scanBalanced 1 cs with
      | none => rw [hsc] at h; exact absurd h (by simp)
      | some pr =>
        obtain ⟨t2, r2⟩ := pr
        rw [hsc] at h
        dsimp only at h
        simp only [Option.some.injEq, Prod.mk.injEq] at h
        obtain ⟨ht, hrr⟩ := h
        rw [scanBalanced_append cs 1 t2 r2 x hsc]
        dsimp only
        rw [← ht, ← hrr]
    · rw [if_neg hc] at h ⊢
      have h2 := pNumCoef_append (c :: cs) t r x h hx
      rw [List.cons_append] at h2
      exact h2

theorem pCompound_nil (prev : Char) : pCompound prev [] = none := by
  unfold pCompound
  rw [show skipWs ([] : List Char) = [] from rfl,
    show pFixedDigits ['M', 'N', 'X', 'M'] ([] : List Char) = none from rfl]
  exact pKeyword_no_match _ _ _ rfl

theorem pCompound_dot (prev : Char) : pCompound prev ['.'] = none := by
  unfold pCompound
  rw [show skipWs ['.'] = ['.'] from rfl,
    show pFixedDigits ['M', 'N', 'X', 'M'] ['.'] = none from rfl]
  exact pKeyword_no_match _ _ _ rfl

theorem pCompartment_nil (prev : Char) : pCompartment prev [] = none := by
  unfold pCompartment
  rw [show skipWs ([] : List Char) = [] from rfl,
    show pFixedDigits ['M', 'N', 'X', 'C'] ([] : List Char) = none from rfl,
    show pFixedDigits ['M', 'N', 'X', 'D'] ([] : List Char) = none from rfl,
    show matchChars ['M', 'N', 'X', 'D', 'X'] ([] : List Char) = none from rfl]
  exact pKeyword_no_match _ _ _ rfl

theorem pFixedDigits_shape (pre s t r : List Char)
    (h : pFixedDigits pre s = some (t, r)) : ∃ ds, t = pre ++ ds := by
  unfold pFixedDigits at h
  cases hm : matchChars pre s with
  | none => rw [hm] at h; exact absurd h (by simp)
  | some rr =>
    rw [hm] at h
    dsimp only at h
    by_cases hds : (rr.takeWhile digitChar).isEmpty
    · rw [if_pos hds] at h; exact absurd h (by simp)
    · rw [if_neg hds] at h
      simp only [Option.some.injEq, Prod.mk.injEq] at h
      exact ⟨rr.takeWhile digitChar, h.1.symm⟩

/-- Appending input after a successful compound match does not change the
token. -/
theorem pCompound_append (prev : Char) (s t r x : List Char)
    (h : pCompound prev s = some (t, r))
    (hx : r = [] → sepStart x = true) :
    pCompound prev (s ++ x) = some (t, r ++ x) := by
  unfold pCompound at h ⊢
  cases hfd : pFixedDigits ['M', 'N', 'X', 'M'] (skipWs s) with
  | some res =>
    rw [hfd] at h
    dsimp only at h
    obtain ⟨t2, r2⟩ := res
    simp only [Option.some.injEq, Prod.mk.injEq] at h
    obtain ⟨ht, hrr⟩ := h
    subst ht; subst hrr
    have hne : skipWs s ≠ [] := by
      intro h0
      rw [h0] at hfd
      simp [pFixedDigits, matchChars] at hfd
    rw [skipWs_append_ne_nil s x hne, pFixedDigits_append _ _ _ _ x hfd hx]
  | none =>
    rw [hfd] at h
    dsimp only at h
    obtain ⟨hks, hkt⟩ := pKeyword_eq _ _ _ _ _ h
    have hne : skipWs s ≠ [] := by
      intro h0
      rw [h0] at h
      rw [pKeyword_no_match _ _ _
        (show matchChars "BIOMASS".data ([] : List Char) = none from rfl)] at h
      exact absurd h (by simp)
    have hsne : s ≠ [] := by
      intro h0
      rw [h0] at hne
      exact hne rfl
    rw [skipWs_append_ne_nil s x hne]
    have hshape : skipWs s ++ x = "BIOMASS".data ++ (r ++ x) := by
      rw [hks, hkt]
      simp
    have hmnxm : pFixedDigits ['M', 'N', 'X', 'M'] (skipWs s ++ x) = none := by
      rw [hshape]
      rfl
    rw [hmnxm]
    dsimp only
    have hhw : headIsWs (s ++ x) = headIsWs s := by
      cases s with
      | nil => exact absurd rfl hsne
      | cons c cs => rfl
    rw [hhw]
    exact pKeyword_append _ _ _ _ _ x h hx

/-- Appending input after a successful compartment match does not change
the token. -/
theorem pCompartment_append (prev : Char) (s t r x : List Char)
    (h : pCompartment prev s = some (t, r))
    (hx : r = [] → sepStart x = true) :
    pCompartment prev (s ++ x) = some (t, r ++ x) := by
  unfold pCompartment at h ⊢
  cases h1 : pFixedDigits ['M', 'N', 'X', 'C'] (skipWs s) with
  | some res =>
    rw [h1] at h
    dsimp only at h
    obtain ⟨t2, r2⟩ := res
    simp only [Option.some.injEq, Prod.mk.injEq] at h
    obtain ⟨ht, hrr⟩ := h
    subst ht; subst hrr
    have hne : skipWs s ≠ [] := by
      intro h0
      rw [h0] at h1
      simp [pFixedDigits, matchChars] at h1
    rw [skipWs_append_ne_nil s x hne, pFixedDigits_append _ _ _ _ x h1 hx]
  | none =>
    rw [h1] at h
    dsimp only at h
    cases h2 : pFixedDigits ['M', 'N', 'X', 'D'] (skipWs s) with
    | some res =>
      rw [h2] at h
      dsimp only at h
      obtain ⟨t2, r2⟩ := res
      simp only [Option.some.injEq, Prod.mk.injEq] at h
      obtain ⟨ht, hrr⟩ := h
      subst ht; subst hrr
      obtain ⟨ds, hds⟩ := pFixedDigits_shape _ _ _ _ h2
      have heq := pFixedDigits_eq _ _ _ _ h2
      have hne : skipWs s ≠ [] := by
        rw [heq, hds]
        simp
      rw [skipWs_append_ne_nil s x hne]
      have hshape : skipWs s ++ x = ['M', 'N', 'X', 'D'] ++ (ds ++ (r2 ++ x)) := by
        rw [heq, hds]
        simp
      have hmnxc : pFixedDigits ['M', 'N', 'X', 'C'] (skipWs s ++ x) = none := by
        rw [hshape]
        rfl
      rw [hmnxc]
      dsimp only
      rw [pFixedDigits_append _ _ _ _ x h2 hx]
    | none =>
      rw [h2] at h
      dsimp only at h
      cases h3 : matchChars ['M', 'N', 'X', 'D', 'X'] (skipWs s) with
      | some rr =>
        rw [h3] at h
        dsimp only at h
        simp only [Option.some.injEq, Prod.mk.injEq] at h
        obtain ⟨ht, hrr⟩ := h
        subst ht; subst hrr
        have heq := matchChars_eq _ _ _ h3
        have hne : skipWs s ≠ [] := by
          rw [heq]
          simp
        rw [skipWs_append_ne_nil s x hne]
        have hshape : skipWs s ++ x = ['M', 'N', 'X', 'D', 'X'] ++ (rr ++ x) := by
          rw [heq]
          simp
        rw [hshape]
        rw [show pFixedDigits ['M', 'N', 'X', 'C']
          (['M', 'N', 'X', 'D', 'X'] ++ (rr ++ x)) = none from rfl]
        dsimp only
        rw [show pFixedDigits ['M', 'N', 'X', 'D']
          (['M', 'N', 'X', 'D', 'X'] ++ (rr ++ x)) = none from rfl]
        dsimp only
        rw [matchChars_self]
      | none =>
        rw [h3] at h
        dsimp only at h
        obtain ⟨hks, hkt⟩ := pKeyword_eq _ _ _ _ _ h
        have hne : skipWs s ≠ [] := by
          intro h0
          rw [h0] at h
          rw [pKeyword_no_match _ _ _
            (show matchChars "BOUNDARY".data ([] : List Char) = none from rfl)] at h
          exact absurd h (by simp)
        have hsne : s ≠ [] := by
          intro h0
          rw [h0] at hne
          exact hne rfl
        rw [skipWs_append_ne_nil s x hne]
        have hshape : skipWs s ++ x = "BOUNDARY".data ++ (r ++ x) := by
          rw [hks, hkt]
          simp
        rw [hshape]
        rw [show pFixedDigits ['M', 'N', 'X', 'C']
          ("BOUNDARY".data ++ (r ++ x)) = none from rfl]
        dsimp only
        rw [show pFixedDigits ['M', 'N', 'X', 'D']
          ("BOUNDARY".data ++ (r ++ x)) = none from rfl]
        dsimp only
        rw [show matchChars ['M', 'N', 'X', 'D', 'X']
          ("BOUNDARY".data ++ (r ++ x)) = none from rfl]
        dsimp only
        have hhw : headIsWs (s ++ x) = headIsWs s := by
          cases s with
          | nil => exact absurd rfl hsne
          | cons c cs => rfl
        rw [hhw, ← hshape]
        exact pKeyword_append _ _ _ _ _ x h hx

theorem pLit_append (c : Char) (s r x : List Char) (h : pLit c s = some r) :
    pLit c (s ++ x) = some (r ++ x) := by
  unfold pLit at h ⊢
  cases hsk : skipWs s with
  | nil => rw [hsk] at h; exact absurd h (by simp)
  | cons d rest =>
    rw [hsk] at h
    dsimp only at h
    by_cases hd : d = c
    · rw [if_pos hd] at h
      simp only [Option.some.injEq] at h
      subst h
      have hne : skipWs s ≠ [] := by rw [hsk]; simp
      rw [skipWs_append_ne_nil s x hne, hsk, List.cons_append]
      dsimp only
      rw [if_pos hd]
    · rw [if_neg hd] at h
      exact absurd h (by simp)

/-- Appending input that starts with a separator after a complete
participant leaves the parsed participant unchanged. -/
theorem pParticipant_append (s : List Char) (p : RawParticipant) (r x : List Char)
    (h : pParticipant s = some (p, r)) (hx : r = [] → sepStart x = true) :
    pParticipant (s ++ x) = some (p, r ++ x) := by
  unfold pParticipant at h ⊢
  cases h1 : pCoefficient s with
  | none => rw [h1] at h; exact absurd h (by simp)
  | some pr1 =>
    obtain ⟨coef, s1⟩ := pr1
    rw [h1] at h
    dsimp only at h
    cases h2 : pCompound (coef.getLastD ' ') s1 with
    | none => rw [h2] at h; exact absurd h (by simp)
    | some pr2 =>
      obtain ⟨cpd, s2⟩ := pr2
      rw [h2] at h
      dsimp only at h
      cases h3 : pLit '@' s2 with
      | none => rw [h3] at h; exact absurd h (by simp)
      | some s3 =>
        rw [h3] at h
        dsimp only at h
        cases h4 : pCompartment '@' s3 with
        | none => rw [h4] at h; exact absurd h (by simp)
        | some pr4 =>
          obtain ⟨cpt, s4⟩ := pr4
          rw [h4] at h
          dsimp only at h
          simp only [Option.some.injEq, Prod.mk.injEq] at h
          obtain ⟨hpp, hrr⟩ := h
          subst hpp; subst hrr
          have hs1 : ¬(s1 = [] ∨ s1 = ['.']) := by
            rintro (rfl | rfl)
            · rw [pCompound_nil] at h2
              exact absurd h2 (by simp)
            · rw [pCompound_dot] at h2
              exact absurd h2 (by simp)
          rw [pCoefficient_append s coef s1 x h1 (fun hor => absurd hor hs1)]
          dsimp only
          have hs2 : s2 ≠ [] := by
            intro h0
            subst h0
            rw [show pLit '@' ([] : List Char) = none from rfl] at h3
            exact absurd h3 (by simp)
          rw [pCompound_append _ s1 cpd s2 x h2 (fun h0 => absurd h0 hs2)]
          dsimp only
          have hs3 : s3 ≠ [] := by
            intro h0
            subst h0
            rw [pCompartment_nil] at h4
            exact absurd h4 (by simp)
          rw [pLit_append '@' s2 s3 x h3]
          dsimp only
          rw [pCompartment_append '@' s3 cpt s4 x h4 hx]

/-- A chunk of text that always parses as exactly one given participant
when followed by a separator, whitespace, or the end of input. -/
def GoodChunk (t : List Char) (p : RawParticipant) : Prop :=
  ∀ rest, sepStart rest = true → pParticipant (t ++ rest) = some (p, rest)

/-- A text that parses as one participant consuming everything is a good
chunk. -/
theorem goodChunk_of_closed (t : List Char) (p : RawParticipant)
    (h : pParticipant t = some (p, [])) : GoodChunk t p := by
  intro rest hrest
  have h2 := pParticipant_append t p [] rest h (fun _ => hrest)
  simpa using h2

theorem pCoefficient_wsPrepend (w s : List Char)
    (hw : ∀ c ∈ w, wsChar c = true) :
    pCoefficient (w ++ s) = pCoefficient s := by
  unfold pCoefficient
  rw [skipWs_append_wsOnly w s hw]

theorem pParticipant_wsPrepend (w s : List Char)
    (hw : ∀ c ∈ w, wsChar c = true) :
    pParticipant (w ++ s) = pParticipant s := by
  unfold pParticipant
  rw [pCoefficient_wsPrepend w s hw]

theorem pParticipantList_wsPrepend (fuel : Nat) (w s : List Char)
    (hw : ∀ c ∈ w, wsChar c = true) :
    pParticipantList fuel (w ++ s) = pParticipantList fuel s := by
  unfold pParticipantList
  rw [pParticipant_wsPrepend w s hw]

theorem pLit_ws_cons (cl : Char) (hcl : wsChar cl = false) (w z : List Char)
    (hw : ∀ c ∈ w, wsChar c = true) :
    pLit cl (w ++ cl :: z) = some z := by
  unfold pLit
  rw [skipWs_append_wsOnly w _ hw, skipWs_cons_not cl z hcl]
  dsimp only
  rw [if_pos rfl]

theorem pLit_ws_cons_ne (cl d : Char) (hd : wsChar d = false) (hne : d ≠ cl)
    (w z : List Char) (hw : ∀ c ∈ w, wsChar c = true) :
    pLit cl (w ++ d :: z) = none := by
  unfold pLit
  rw [skipWs_append_wsOnly w _ hw, skipWs_cons_not d z hd]
  dsimp only
  rw [if_neg hne]

theorem pLit_wsOnly (cl : Char) (w : List Char)
    (hw : ∀ c ∈ w, wsChar c = true) : pLit cl w = none := by
  unfold pLit
  rw [skipWs_wsOnly w hw]

/-- One `+`-delimited continuation of a participant list: whitespace, the
`+`, more whitespace, and a participant chunk with its parse value. -/
structure GlueItem where
  wsA : List Char
  wsB : List Char
  chunk : List Char
  value : RawParticipant

/-- Text of a list of continuations. -/
def glueItems : List GlueItem → List Char
  | [] => []
  | it :: more => it.wsA ++ ('+' :: (it.wsB ++ (it.chunk ++ glueItems more)))

/-- Well-formedness of continuations: the surrounding runs are whitespace
and each chunk is a good participant chunk. -/
def ItemsOk (items : List GlueItem) : Prop :=
  ∀ it ∈ items, (∀ c ∈ it.wsA, wsChar c = true) ∧
    (∀ c ∈ it.wsB, wsChar c = true) ∧ GoodChunk it.chunk it.value

theorem sepStart_ws_sep (w : List Char) (hw : ∀ c ∈ w, wsChar c = true)
    (c : Char) (hc : (wsChar c || c = '+' || c = '=') = true) (z : List Char) :
    sepStart (w ++ c :: z) = true := by
  cases w with
  | nil => simpa [sepStart] using hc
  | cons d w2 => simp [sepStart, hw d (List.mem_cons_self d w2)]

theorem sepStart_wsOnly (w : List Char) (hw : ∀ c ∈ w, wsChar c = true) :
    sepStart w = true := by
  cases w with
  | nil => rfl
  | cons c cs => simp [sepStart, hw c (List.mem_cons_self c cs)]

theorem sepStart_glueItems (items : List GlueItem) (hit : ItemsOk items)
    (rest : List Char) (hrest : sepStart rest = true) :
    sepStart (glueItems items ++ rest) = true := by
  cases items with
  | nil => simpa [glueItems] using hrest
  | cons it more =>
    obtain ⟨hwa, -, -⟩ := hit it (List.mem_cons_self it more)
    have hsh : glueItems (it :: more) ++ rest =
        it.wsA ++ '+' :: (it.wsB ++ (it.chunk ++ (glueItems more ++ rest))) := by
      simp [glueItems]
    rw [hsh]
    exact sepStart_ws_sep it.wsA hwa '+' (by decide) _

theorem glueItems_length (items : List GlueItem) :
    items.length ≤ (glueItems items).length := by
  induction items with
  | nil => simp [glueItems]
  | cons it more ih =>
    simp only [glueItems, List.length_cons, List.length_append]
    omega

/-- Core of C9: the `+`-repetition consumes exactly the glued
continuations, whatever whitespace surrounds the separators. -/
theorem pMoreParticipants_glue :
    ∀ (items : List GlueItem) (fuel : Nat) (rest : List Char),
      ItemsOk items → sepStart rest = true → pLit '+' rest = none →
      items.length ≤ fuel →
      pMoreParticipants fuel (glueItems items ++ rest) =
        (items.map GlueItem.value, rest) := by
  intro items
  induction items with
  | nil =>
    intro fuel rest hok hsep hplus hlen
    simp only [glueItems, List.nil_append, List.map_nil]
    cases fuel with
    | zero => rfl
    | succ f =>
      unfold pMoreParticipants
      rw [hplus]
  | cons it more ih =>
    intro fuel rest hok hsep hplus hlen
    cases fuel with
    | zero => simp at hlen
    | succ f =>
      obtain ⟨hwa, hwb, hgc⟩ := hok it (List.mem_cons_self it more)
      have hokm : ItemsOk more := fun q hq => hok q (List.mem_cons_of_mem it hq)
      have hlen2 : more.length ≤ f := by
        simp only [List.length_cons] at hlen
        omega
      have hsh : glueItems (it :: more) ++ rest =
          it.wsA ++ '+' :: (it.wsB ++ (it.chunk ++ (glueItems more ++ rest))) := by
        simp [glueItems]
      rw [hsh]
      unfold pMoreParticipants
      rw [pLit_ws_cons '+' (by decide) it.wsA _ hwa]
      dsimp only
      rw [pParticipant_wsPrepend it.wsB _ hwb]
      rw [hgc (glueItems more ++ rest) (sepStart_glueItems more hokm rest hsep)]
      dsimp only
      rw [ih f rest hokm hsep hplus hlen2]
      simp

/-- One side of the equation parses to the head chunk's value followed by
the continuations' values, whatever whitespace surrounds the `+`
separators. -/
theorem pParticipantList_glue (t : List Char) (p : RawParticipant)
    (items : List GlueItem) (fuel : Nat) (rest : List Char)
    (hgc : GoodChunk t p) (hok : ItemsOk items)
    (hsep : sepStart rest = true) (hplus : pLit '+' rest = none)
    (hlen : items.length ≤ fuel) :
    pParticipantList fuel (t ++ (glueItems items ++ rest)) =
      some (p :: items.map GlueItem.value, rest) := by
  unfold pParticipantList
  rw [hgc (glueItems items ++ rest) (sepStart_glueItems items hok rest hsep)]
  dsimp only
  rw [pMoreParticipants_glue items fuel rest hok hsep hplus hlen]

/-- C9: whitespace around the `+` and `=` separators (and at the ends of
the text) is irrelevant.  Any equation text assembled from fixed
participant chunks with arbitrary whitespace runs `w0`, `wsA`/`wsB` (per
`+`), `wa`/`wb` (around `=`) and `wend` parses to the same Equation,
independent of every whitespace choice; hence two texts differing only in
such whitespace parse to structurally identical Equations. -/
theorem c9_whitespace_around_separators
    (w0 wa wb wend t1 u1 : List Char) (p1 q1 : RawParticipant)
    (items1 items2 : List GlueItem)
    (hw0 : ∀ c ∈ w0, wsChar c = true) (hwa : ∀ c ∈ wa, wsChar c = true)
    (hwb : ∀ c ∈ wb, wsChar c = true) (hwend : ∀ c ∈ wend, wsChar c = true)
    (ht1 : GoodChunk t1 p1) (hu1 : GoodChunk u1 q1)
    (hit1 : ItemsOk items1) (hit2 : ItemsOk items2) :
    parseEquation (String.mk (w0 ++ (t1 ++ (glueItems items1 ++
        (wa ++ ('=' :: (wb ++ (u1 ++ (glueItems items2 ++ wend))))))))) =
      some ⟨p1 :: items1.map GlueItem.value, q1 :: items2.map GlueItem.value⟩ := by
  have hsep1 : sepStart (wa ++ '=' :: (wb ++ (u1 ++ (glueItems items2 ++ wend)))) =
      true := sepStart_ws_sep wa hwa '=' (by decide) _
  have hplus1 : pLit '+' (wa ++ '=' :: (wb ++ (u1 ++ (glueItems items2 ++ wend)))) =
      none := pLit_ws_cons_ne '+' '=' (by decide) (by decide) wa _ hwa
  have hsep2 : sepStart wend = true := sepStart_wsOnly wend hwend
  have hplus2 : pLit '+' wend = none := pLit_wsOnly '+' wend hwend
  have hlen1 : items1.length ≤ (String.mk (w0 ++ (t1 ++ (glueItems items1 ++
      (wa ++ ('=' :: (wb ++ (u1 ++ (glueItems items2 ++ wend))))))))).length := by
    have h0 := glueItems_length items1
    simp only [String.length, List.length_append, List.length_cons]
    omega
  have hlen2 : items2.length ≤ (String.mk (w0 ++ (t1 ++ (glueItems items1 ++
      (wa ++ ('=' :: (wb ++ (u1 ++ (glueItems items2 ++ wend))))))))).length := by
    have h0 := glueItems_length items2
    simp only [String.length, List.length_append, List.length_cons]
    omega
  unfold parseEquation parseRaw pReaction
  dsimp only
  rw [pParticipantList_wsPrepend _ w0 _ hw0]
  rw [pParticipantList_glue t1 p1 items1 _ _ ht1 hit1 hsep1 hplus1 hlen1]
  dsimp only
  rw [pLit_ws_cons '=' (by decide) wa _ hwa]
  dsimp only
  rw [pParticipantList_wsPrepend _ wb _ hwb]
  rw [pParticipantList_glue u1 q1 items2 _ wend hu1 hit2 hsep2 hplus2 hlen2]
  dsimp only
  rw [skipWs_wsOnly wend hwend]
  rfl

/-- C9 witness: the theorem at a concrete pair of chunk lists with uneven
whitespace around the separators. -/
theorem c9_witness :
    parseEquation (String.mk ([] ++ ("1 MNXM1@MNXC3".data ++
        (glueItems [⟨[' '], [' ', ' '], "2 MNXM4@MNXC3".data,
          ⟨"2", "MNXM4", "MNXC3"⟩⟩] ++
        ([] ++ ('=' :: ([' '] ++ ("1 MNXM9@MNXC4".data ++
        (glueItems [] ++ [' ', ' ']))))))))) =
      some ⟨[⟨"1", "MNXM1", "MNXC3"⟩, ⟨"2", "MNXM4", "MNXC3"⟩],
            [⟨"1", "MNXM9", "MNXC4"⟩]⟩ :=
  c9_whitespace_around_separators [] [] [' '] [' ', ' ']
    "1 MNXM1@MNXC3".data "1 MNXM9@MNXC4".data
    ⟨"1", "MNXM1", "MNXC3"⟩ ⟨"1", "MNXM9", "MNXC4"⟩
    [⟨[' '], [' ', ' '], "2 MNXM4@MNXC3".data, ⟨"2", "MNXM4", "MNXC3"⟩⟩] []
    (by decide) (by decide) (by decide) (by decide)
    (goodChunk_of_closed _ _ (by decide))
    (goodChunk_of_closed _ _ (by decide))
    (by
      intro it hit
      rw [List.mem_singleton] at hit
      subst hit
      exact ⟨by decide, by decide, goodChunk_of_closed _ _ (by decide)⟩)
    (by intro it hit; simp at hit)

end MetanetxAssets
